import Mathlib

/-!
Verification of the Polyglot-Creator book builder.

This file shallowly embeds the two Python sources of the repository,
`src/create_polyglot.py` (namespace `CP`) and `src/Crazy_Horde.py`
(namespace `CH`), and settles the frozen claims about them.

Modelling conventions:
* Python machine-independent ints become `Nat` (all weights and scores in the
  program are non-negative: per-ply scores are 0/1/2 and merged polyglot
  weights are unsigned 16-bit fields).
* `bytes` values become `List Nat` with every element `< 256`.
* Python dicts (which iterate in insertion order) become association lists;
  `dict.setdefault` / the explicit get-or-create helpers append at the end.
* External collaborators (python-chess: board state, zobrist hashing, move
  objects, PGN parsing) are parameters, following spec sections 1 and 6 which
  scope them out as opaque interfaces.
* the rescale expression `int(bm.weight / total_weight * MAX_BOOK_WEIGHT)`
  is evaluated by CPython in IEEE-754 binary64 arithmetic: the integer
  quotient `w / t` is the correctly rounded double (round-to-nearest,
  ties-to-even, gradual underflow), the product with the exactly
  representable 10000.0 is correctly rounded again, and `int` truncates
  toward zero.  `pyRescale` below implements exactly this with integer
  arithmetic on dyadic significand/exponent pairs; it differs from the
  exact floor of w*10000/t at reachable inputs such as w=57, t=100,
  where the program yields 5699 and the exact floor 5700.
-/

/-- `MAX_BOOK_PLIES` constant, identical in both sources. -/
def MAX_BOOK_PLIES : Nat := 20

/-- `MAX_BOOK_WEIGHT` constant, identical in both sources. -/
def MAX_BOOK_WEIGHT : Nat := 10000

/-- A structured chess move as exposed by the external move representation
(python-chess `chess.Move`): from-square and to-square in 0..63, optional
promotion piece type (1..6 with `chess.KING = 6`, queen = 5) and optional
drop piece type (Crazyhouse).  `from_square`/`to_square` are always present
(python-chess encodes a drop with `from_square == to_square`). -/
structure PMove where
  from_square : Nat
  to_square : Nat
  promotion : Option Nat
  drop : Option Nat
deriving DecidableEq

/-- `BookMove.__init__`: weight 0, move not yet resolved (both sources). -/
structure BookMove where
  weight : Nat
  move : Option PMove
deriving DecidableEq

/-- `BookPosition`: insertion-ordered move table keyed by uci string, plus the
diagnostic `fen` field (set only by `Crazy_Horde.py`). -/
structure BookPosition where
  moves : List (String × BookMove)
  fen : String
deriving DecidableEq

/-- `Book`: insertion-ordered position table.  The position key is the
64-bit zobrist value; the sources key the dict by its fixed 16-hex-character
string rendering (`format_zobrist_key_hex`), a lossless representation of the
same number, so we key by the number directly. -/
structure Book where
  positions : List (Nat × BookPosition)
deriving DecidableEq

/-- `Book()` : empty book. -/
def Book.empty : Book := ⟨[]⟩

/-- The write-time filter, `if bm.weight <= 0: continue` in `create_polyglot.py`
and `if weight > 0:` in `Crazy_Horde.py`: keep exactly the moves of positive
weight. -/
def wpos (q : String × BookMove) : Bool := decide (0 < q.2.weight)

/-- `total_weight`: the per-position sum of move weights
(`create_polyglot.py` line 39, `Crazy_Horde.py` lines 49-54). -/
def totalWeight (l : List (String × BookMove)) : Nat :=
  (l.map (fun q => q.2.weight)).sum

/-- The running-maximum loop of `Crazy_Horde.normalize_weights`
(lines 48-53): `max_weight = 0; if bm.weight > max_weight: max_weight = bm.weight`. -/
def maxFold (mx : Nat) (l : List (String × BookMove)) : Nat :=
  l.foldl (fun m q => if m < q.2.weight then q.2.weight else m) mx

/-- `max_weight` of a position in `Crazy_Horde.normalize_weights`. -/
def maxWeight (l : List (String × BookMove)) : Nat := maxFold 0 l

/-- Big-endian byte rendering: `x.to_bytes(n, byteorder="big")` /
`bytes.fromhex("%0.<2n>x" % x)`, for `x < 256 ^ n` (the sources only reach
this with in-range values; out of range, Python raises). -/
def toBytesBE : Nat → Nat → List Nat
  | 0, _ => []
  | n + 1, x => toBytesBE n (x / 256) ++ [x % 256]

/-- Big-endian byte decoding, the inverse of `toBytesBE`. -/
def fromBytesBE (l : List Nat) : Nat := l.foldl (fun a b => a * 256 + b) 0

/-- Strict lexicographic comparison of byte strings, Python `bytes.__lt__`. -/
def bytesLt : List Nat → List Nat → Bool
  | [], [] => false
  | [], _ :: _ => true
  | _ :: _, [] => false
  | a :: as, b :: bs => if a < b then true else if a = b then bytesLt as bs else false

/-- Lexicographic comparison of byte strings, Python `bytes.__le__`. -/
def bytesLe : List Nat → List Nat → Bool
  | [], _ => true
  | _ :: _, [] => false
  | a :: as, b :: bs => if a < b then true else if a = b then bytesLe as bs else false

theorem bytesLe_refl (a : List Nat) : bytesLe a a = true := by
  induction a with
  | nil => rfl
  | cons x xs ih => simp [bytesLe, ih]

theorem bytesLe_eq_lt_or_eq (a b : List Nat) :
    bytesLe a b = true ↔ (bytesLt a b = true ∨ a = b) := by
  induction a generalizing b with
  | nil => cases b <;> simp [bytesLe, bytesLt]
  | cons x xs ih =>
    cases b with
    | nil => simp [bytesLe, bytesLt]
    | cons y ys =>
      by_cases hxy : x < y
      · simp [bytesLe, bytesLt, hxy]
      · by_cases hxe : x = y
        · subst hxe
          simp [bytesLe, bytesLt, hxy, ih ys]
        · simp [bytesLe, bytesLt, hxy, hxe]

theorem bytesLe_total (a b : List Nat) : bytesLe a b = true ∨ bytesLe b a = true := by
  induction a generalizing b with
  | nil => exact Or.inl rfl
  | cons x xs ih =>
    cases b with
    | nil => exact Or.inr rfl
    | cons y ys =>
      rcases Nat.lt_trichotomy x y with h | h | h
      · left; simp [bytesLe, h]
      · subst h
        rcases ih ys with h' | h'
        · left; simp [bytesLe, h']
        · right; simp [bytesLe, h']
      · right; simp [bytesLe, h]

theorem bytesLe_trans {a b c : List Nat} (h1 : bytesLe a b = true)
    (h2 : bytesLe b c = true) : bytesLe a c = true := by
  induction a generalizing b c with
  | nil => rfl
  | cons x xs ih =>
    cases b with
    | nil => simp [bytesLe] at h1
    | cons y ys =>
      cases c with
      | nil => simp [bytesLe] at h2
      | cons z zs =>
        simp only [bytesLe] at h1 h2 ⊢
        by_cases hxy : x < y
        · by_cases hyz : y < z
          · simp [Nat.lt_trans hxy hyz]
          · by_cases hye : y = z
            · subst hye; simp [hxy]
            · simp [hyz, hye] at h2
        · by_cases hxe : x = y
          · subst hxe
            simp only [if_neg hxy, if_pos rfl] at h1
            by_cases hyz : x < z
            · simp [hyz]
            · by_cases hye : x = z
              · subst hye
                simp only [if_neg hxy, if_pos rfl] at h2 ⊢
                exact ih h1 h2
              · simp [hyz, hye] at h2
          · simp [hxy, hxe] at h1

theorem bytesLe_antisymm {a b : List Nat} (h1 : bytesLe a b = true)
    (h2 : bytesLe b a = true) : a = b := by
  induction a generalizing b with
  | nil => cases b with
    | nil => rfl
    | cons y ys => simp [bytesLe] at h2
  | cons x xs ih =>
    cases b with
    | nil => simp [bytesLe] at h1
    | cons y ys =>
      simp only [bytesLe] at h1 h2
      by_cases hxy : x < y
      · by_cases hyx : y < x
        · omega
        · by_cases hye : y = x
          · omega
          · simp [hyx, hye] at h2
      · by_cases hxe : x = y
        · subst hxe
          simp only [if_neg hxy, if_pos rfl] at h1 h2
          exact congrArg (x :: ·) (ih h1 h2)
        · simp [hxy, hxe] at h1

theorem bytesLt_of_not_le {a b : List Nat} (h : ¬ bytesLe a b = true) :
    bytesLt b a = true := by
  rcases bytesLe_total a b with h' | h'
  · exact absurd h' h
  · rcases (bytesLe_eq_lt_or_eq b a).mp h' with hlt | heq
    · exact hlt
    · exact absurd (heq ▸ bytesLe_refl b) h

theorem toBytesBE_length (n x : Nat) : (toBytesBE n x).length = n := by
  induction n generalizing x with
  | zero => rfl
  | succ k ih => simp [toBytesBE, ih]

theorem fromBytesBE_append (l : List Nat) (b : Nat) :
    fromBytesBE (l ++ [b]) = fromBytesBE l * 256 + b := by
  simp [fromBytesBE, List.foldl_append]

theorem fromBytesBE_toBytesBE (n x : Nat) :
    fromBytesBE (toBytesBE n x) = x % 256 ^ n := by
  induction n generalizing x with
  | zero => simp [toBytesBE, fromBytesBE, Nat.mod_one]
  | succ k ih =>
    rw [toBytesBE, fromBytesBE_append, ih]
    have hq : x / 256 % 256 ^ k < 256 ^ k :=
      Nat.mod_lt _ (pow_pos (by norm_num) k)
    have hr : x % 256 < 256 := Nat.mod_lt _ (by norm_num)
    have hx : x = 256 ^ k * 256 * (x / 256 / 256 ^ k)
        + (x / 256 % 256 ^ k * 256 + x % 256) := by
      have h1 := Nat.div_add_mod x 256
      have h2 := Nat.div_add_mod (x / 256) (256 ^ k)
      have h3 : 256 * (256 ^ k * (x / 256 / 256 ^ k) + x / 256 % 256 ^ k) + x % 256 = x := by
        rw [h2, h1]
      conv_lhs => rw [← h3]
      ring
    have hs : x / 256 % 256 ^ k * 256 + x % 256 < 256 ^ k * 256 := by
      have := Nat.mul_le_mul_right 256 hq
      omega
    calc x / 256 % 256 ^ k * 256 + x % 256
        = (256 ^ k * 256 * (x / 256 / 256 ^ k)
            + (x / 256 % 256 ^ k * 256 + x % 256)) % (256 ^ k * 256) := by
          rw [Nat.mul_add_mod]
          exact (Nat.mod_eq_of_lt hs).symm
      _ = x % (256 ^ k * 256) := by rw [← hx]
      _ = x % 256 ^ (k + 1) := by rw [pow_succ]

/-- `BookPosition.get_move(uci)` followed by `bm.move = m; bm.weight += d`
(the accumulation step shared by ingestion, `create_polyglot.py` lines 134-136
and `Crazy_Horde.py` lines 206-211, and by `merge_file`): if `uci` is already
present its weight grows by `d` and its move is overwritten, otherwise a fresh
`BookMove()` receives the move and weight and is appended at the end (Python
dict insertion order). -/
def updMoves : List (String × BookMove) → String → PMove → Nat → List (String × BookMove)
  | [], uci, m, d => [(uci, ⟨d, some m⟩)]
  | (u, bm) :: rest, uci, m, d =>
    if u = uci then (u, ⟨bm.weight + d, some m⟩) :: rest
    else (u, bm) :: updMoves rest uci m d

/-- `Book.get_position(key)` followed by the accumulation step on the returned
position: the position is created empty (and appended at the end) if absent. -/
def updPositions : List (Nat × BookPosition) → Nat → String → PMove → Nat →
    List (Nat × BookPosition)
  | [], key, uci, m, d => [(key, ⟨updMoves [] uci m d, ""⟩)]
  | (k, bp) :: rest, key, uci, m, d =>
    if k = key then (k, { bp with moves := updMoves bp.moves uci m d }) :: rest
    else (k, bp) :: updPositions rest key uci m d

/-- One full accumulation into the book: `bp = book.get_position(key);
bm = bp.get_move(uci); bm.move = m; bm.weight += d`. -/
def Book.addMove (b : Book) (key : Nat) (uci : String) (m : PMove) (d : Nat) : Book :=
  ⟨updPositions b.positions key uci m d⟩

/-- `bp = book.get_position(key); bp.fen = f` (`Crazy_Horde.py` lines 183-185
and 213-216): creates the (possibly empty) position entry and overwrites its
diagnostic fen string. -/
def updFen : List (Nat × BookPosition) → Nat → String → List (Nat × BookPosition)
  | [], key, f => [(key, ⟨[], f⟩)]
  | (k, bp) :: rest, key, f =>
    if k = key then (k, { bp with fen := f }) :: rest
    else (k, bp) :: updFen rest key f

/-- Book-level wrapper for `updFen`. -/
def Book.enterPosition (b : Book) (key : Nat) (f : String) : Book :=
  ⟨updFen b.positions key f⟩

/-- Observation helper: the position stored under a key (dict lookup). -/
def Book.findPos (b : Book) (key : Nat) : Option BookPosition :=
  b.positions.lookup key

/-- Observation helper: the weight stored for a (key, uci) pair. -/
def Book.weightOf (b : Book) (key : Nat) (uci : String) : Option Nat :=
  (b.findPos key).bind fun bp => (bp.moves.lookup uci).map (fun bm => bm.weight)

/-- `LichessGame.score` (identical tables in both sources): "1-0" scores 2,
"1/2-1/2" scores 1, anything else (including "0-1" and "*") scores 0. -/
def LichessGame.score (res : String) : Nat :=
  if res = "1/2-1/2" then 1 else if res = "1-0" then 2 else 0

/-- `chess.parse_square` for a two-character square name such as "e1":
file letter a-h plus rank digit 1-8 (external python-chess helper used by
`correct_castling_uci`). -/
def parse_square (s : String) : Nat :=
  match s.data with
  | [f, r] => (f.toNat - 97) + 8 * (r.toNat - 49)
  | _ => 0

/-- `chess.KING` piece-type constant. -/
def KING : Nat := 6

/-- `correct_castling_uci(uci, board)` from `create_polyglot.py` lines 107-113.
The board access `board.piece_at(parse_square(uci[:2])).piece_type` is
abstracted to the piece type found at the uci string's from-square (`none`
for an empty square; on an empty square the Python code would raise, a state
unreachable for a legal move's from-square). -/
def correct_castling_uci (pieceAtFrom : Option Nat) (uci : String) : String :=
  if pieceAtFrom = some KING then
    if uci = "e1g1" then "e1h1"
    else if uci = "e1c1" then "e1a1"
    else if uci = "e8g8" then "e8h8"
    else if uci = "e8c8" then "e8a8"
    else uci
  else uci

/-- The inline castling-rewrite block of `Crazy_Horde.build_book_file`
(lines 192-204): `from_square` is never `None` in python-chess (drops carry
`from_square == to_square`), so the outer guard always passes; the rewrite
fires iff the from-square holds a piece (`if fromp`) of type king. -/
def CH.castlingRewrite (pieceAtFrom : Option Nat) (uci : String) : String :=
  match pieceAtFrom with
  | some pt =>
    if pt = KING then
      if uci = "e1g1" then "e1h1"
      else if uci = "e1c1" then "e1a1"
      else if uci = "e8g8" then "e8h8"
      else if uci = "e8c8" then "e8a8"
      else uci
    else uci
  | none => uci

/-- The external python-chess collaborators, consumed as opaque operations
per spec sections 1 and 6: zobrist hashing, board inspection and mutation,
and the uci string codec for moves. -/
structure ExternalOps (Board : Type) where
  zobrist : Board → Nat
  pieceTypeAt : Board → Nat → Option Nat
  turnWhite : Board → Bool
  push : Board → PMove → Board
  fen : Board → String
  uciOf : PMove → String
  fromUci : String → PMove

/-- A parsed game as delivered by `chess.pgn.read_game`: the declared
`Variant` header (defaulted to "Standard"), the `Result` header (defaulted
to "*"), the starting board (variant-specific initial position, after any
`FEN` header override, both produced externally) and the mainline moves. -/
structure PGame (Board : Type) where
  variant : String
  result : String
  startBoard : Board
  moves : List PMove

/-- Move-field encoding of `create_polyglot.save_as_polyglot` (lines 56-58):
`mi = to_square + (from_square << 6)`, then `mi += (promotion - 1) << 12`
when `move.promotion` is truthy (a piece type 1..6, never 0).  This variant
has no drop handling. -/
def CP.moveInt (m : PMove) : Nat :=
  let mi := m.to_square + m.from_square * 64
  match m.promotion with
  | some p => mi + (p - 1) * 4096
  | none => mi

/-- Move-field encoding of `Crazy_Horde.save_as_polyglot` (lines 71-75):
as in `CP.moveInt`, but with the `elif m.drop is not None` branch adding
`(drop - 1) << 12` for Crazyhouse drops. -/
def CH.moveInt (m : PMove) : Nat :=
  let mi := m.to_square + m.from_square * 64
  match m.promotion with
  | some p => mi + (p - 1) * 4096
  | none =>
    match m.drop with
    | some d => mi + (d - 1) * 4096
    | none => mi

/-- The placeholder used to read `bm.move` when it was never resolved;
every book reachable through the program's own operations stores `some`
move before any weight, so the placeholder is never read there (reading a
`None` move would raise `AttributeError` in Python). -/
def noMove : PMove := ⟨0, 0, none, none⟩

/-- One 16-byte record of `create_polyglot.save_as_polyglot` (lines 55-64):
`zbytes + mbytes + wbytes + lbytes` with the 8-byte big-endian key, the
2-byte move field, the 2-byte weight field and 4 zero bytes. -/
def CP.entryBytes (key : Nat) (bm : BookMove) : List Nat :=
  toBytesBE 8 key ++ toBytesBE 2 (CP.moveInt (bm.move.getD noMove))
    ++ toBytesBE 2 bm.weight ++ toBytesBE 4 0

/-- One 16-byte record of `Crazy_Horde.save_as_polyglot` (lines 66-80), built
with `bytes.fromhex("%0.4x" % mi)` etc., the hex detour being the same
big-endian encoding. -/
def CH.entryBytes (key : Nat) (bm : BookMove) : List Nat :=
  toBytesBE 8 key ++ toBytesBE 2 (CH.moveInt (bm.move.getD noMove))
    ++ toBytesBE 2 bm.weight ++ toBytesBE 4 0

/-- `e[0:8]`, the key slice of a record. -/
def keySlice (e : List Nat) : List Nat := e.take 8

/-- `e[10:12]`, the weight slice of a record. -/
def weightSlice (e : List Nat) : List Nat := (e.drop 10).take 2

/-- The sort order of `create_polyglot.save_as_polyglot` line 67:
`entries.sort(key=lambda e: (e[:8], e[10:12]), reverse=False)`, i.e. the
lexicographic order on the pair (key bytes, weight bytes) — both components
ASCENDING. -/
def cpLe (a b : List Nat) : Bool :=
  bytesLt (keySlice a) (keySlice b)
    || (keySlice a = keySlice b && bytesLe (weightSlice a) (weightSlice b))

/-- `cpLe` as a relation for `List.insertionSort`. -/
def cpLeR (a b : List Nat) : Prop := cpLe a b = true

instance : DecidableRel cpLeR := fun a b => instDecidableEqBool (cpLe a b) true

/-- Ascending order on the key slice (the outer, last-applied sort of
`Crazy_Horde.save_as_polyglot` line 88). -/
def keyAscR (a b : List Nat) : Prop := bytesLe (keySlice a) (keySlice b) = true

instance : DecidableRel keyAscR := fun a b =>
  instDecidableEqBool (bytesLe (keySlice a) (keySlice b)) true

/-- Descending order on the weight slice (the inner sort of
`Crazy_Horde.save_as_polyglot` line 87, `reverse=True`). -/
def wDescR (a b : List Nat) : Prop := bytesLe (weightSlice b) (weightSlice a) = true

instance : DecidableRel wDescR := fun a b =>
  instDecidableEqBool (bytesLe (weightSlice b) (weightSlice a)) true

instance : IsTotal (List Nat) cpLeR where
  total a b := by
    unfold cpLeR cpLe
    by_cases hk : keySlice a = keySlice b
    · rcases bytesLe_total (weightSlice a) (weightSlice b) with h | h
      · left; simp [hk, h]
      · right; simp [hk.symm, h]
    · rcases bytesLe_total (keySlice a) (keySlice b) with h | h
      · left
        rcases (bytesLe_eq_lt_or_eq _ _).mp h with h' | h'
        · simp [h']
        · exact absurd h' hk
      · right
        rcases (bytesLe_eq_lt_or_eq _ _).mp h with h' | h'
        · simp [h']
        · exact absurd h'.symm hk

theorem bytesLt_trans {a b c : List Nat} (h1 : bytesLt a b = true)
    (h2 : bytesLt b c = true) : bytesLt a c = true := by
  induction a generalizing b c with
  | nil =>
    cases b with
    | nil => exact absurd h1 (by simp [bytesLt])
    | cons y ys => cases c with
      | nil => exact absurd h2 (by simp [bytesLt])
      | cons z zs => rfl
  | cons x xs ih =>
    cases b with
    | nil => simp [bytesLt] at h1
    | cons y ys =>
      cases c with
      | nil => simp [bytesLt] at h2
      | cons z zs =>
        simp only [bytesLt] at h1 h2 ⊢
        by_cases hxy : x < y
        · by_cases hyz : y < z
          · simp [Nat.lt_trans hxy hyz]
          · by_cases hye : y = z
            · subst hye; simp [hxy]
            · simp [hyz, hye] at h2
        · by_cases hxe : x = y
          · subst hxe
            simp only [if_neg hxy, if_pos rfl] at h1
            by_cases hyz : x < z
            · simp [hyz]
            · by_cases hye : x = z
              · subst hye
                simp only [if_neg hxy, if_pos rfl] at h2 ⊢
                exact ih h1 h2
              · simp [hyz, hye] at h2
          · simp [hxy, hxe] at h1

theorem bytesLt_le_trans {a b c : List Nat} (h1 : bytesLt a b = true)
    (h2 : bytesLe b c = true) : bytesLt a c = true := by
  rcases (bytesLe_eq_lt_or_eq b c).mp h2 with h' | h'
  · exact bytesLt_trans h1 h'
  · exact h' ▸ h1

theorem bytesLe_lt_trans {a b c : List Nat} (h1 : bytesLe a b = true)
    (h2 : bytesLt b c = true) : bytesLt a c = true := by
  rcases (bytesLe_eq_lt_or_eq a b).mp h1 with h' | h'
  · exact bytesLt_trans h' h2
  · exact h' ▸ h2

instance : IsTrans (List Nat) cpLeR where
  trans a b c hab hbc := by
    unfold cpLeR cpLe at hab hbc ⊢
    rcases Bool.or_eq_true_iff.mp hab with h1 | h1 <;>
      rcases Bool.or_eq_true_iff.mp hbc with h2 | h2
    · simp [bytesLt_trans h1 h2]
    · rcases Bool.and_eq_true_iff.mp h2 with ⟨h2k, _⟩
      have h2k' := of_decide_eq_true h2k
      simp [h2k' ▸ h1]
    · rcases Bool.and_eq_true_iff.mp h1 with ⟨h1k, _⟩
      have h1k' := of_decide_eq_true h1k
      simp [h1k' ▸ h2]
    · rcases Bool.and_eq_true_iff.mp h1 with ⟨h1k, h1w⟩
      rcases Bool.and_eq_true_iff.mp h2 with ⟨h2k, h2w⟩
      have h1k' := of_decide_eq_true h1k
      have h2k' := of_decide_eq_true h2k
      simp [h1k'.trans h2k', bytesLe_trans h1w h2w]

instance : IsTotal (List Nat) keyAscR where
  total a b := bytesLe_total (keySlice a) (keySlice b)

instance : IsTrans (List Nat) keyAscR where
  trans _ _ _ hab hbc := bytesLe_trans hab hbc

instance : IsTotal (List Nat) wDescR where
  total a b := bytesLe_total (weightSlice b) (weightSlice a)

instance : IsTrans (List Nat) wDescR where
  trans _ _ _ hab hbc := bytesLe_trans hbc hab

/-- The per-position record harvest of `create_polyglot.save_as_polyglot`
(lines 51-65): every move of positive weight yields one record, skipped
moves (`weight <= 0`) none, in the table's insertion order. -/
def CP.posEntries (key : Nat) (bp : BookPosition) : List (List Nat) :=
  (bp.moves.filter wpos).map (fun q => CP.entryBytes key q.2)

/-- All records of a book, positions in insertion order (lines 48-65). -/
def CP.rawEntries (b : Book) : List (List Nat) :=
  (b.positions.map (fun p => CP.posEntries p.1 p.2)).flatten

/-- `create_polyglot.save_as_polyglot`: harvest, then
`entries.sort(key=lambda e: (e[:8], e[10:12]), reverse=False)` — a stable
ascending sort on (key bytes, weight bytes); returns the record sequence in
file order (the file's bytes are their concatenation). -/
def CP.save_as_polyglot (b : Book) : List (List Nat) :=
  List.insertionSort cpLeR (CP.rawEntries b)

/-- Bit length of a natural number (0 for 0), with the number itself as
structural fuel so the kernel can evaluate it: for n > 0,
`bitlen n = floor(log2 n) + 1`. -/
def bitlenAux : Nat → Nat → Nat
  | 0, _ => 0
  | fuel + 1, n => if n = 0 then 0 else bitlenAux fuel (n / 2) + 1

/-- Bit length of a natural number. -/
def bitlen (n : Nat) : Nat := bitlenAux n n

/-- Round the rational a / b (b > 0) to the nearest integer, ties to even —
the rounding step of IEEE-754 round-to-nearest. -/
def rnde (a b : Nat) : Nat :=
  if 2 * (a % b) < b then a / b
  else if b < 2 * (a % b) then a / b + 1
  else if (a / b) % 2 = 0 then a / b else a / b + 1

/-- floor(log2(p / q)) for p, q > 0.  With a = bitlen p - 1 and
b = bitlen q - 1 we have p/q in (2^(a-b-1), 2^(a-b+1)), and the comparison
q * 2^a <= p * 2^b decides whether 2^(a-b) <= p/q. -/
def floorLog2 (p q : Nat) : Int :=
  if q * 2 ^ (bitlen p - 1) ≤ p * 2 ^ (bitlen q - 1)
  then (bitlen p : Int) - bitlen q
  else (bitlen p : Int) - bitlen q - 1

/-- The IEEE-754 binary64 grid exponent for the magnitude of p / q: 52 bits
below the leading bit, floored at -1074 for gradual underflow. -/
def fexp (p q : Nat) : Int := max (floorLog2 p q - 52) (-1074)

/-- The correctly rounded IEEE-754 binary64 value of the rational p / q
(round-to-nearest, ties-to-even, gradual underflow), as an exact dyadic
pair (significand, exponent): the value represented is n * 2^e.  This is
CPython's `p / q` on ints for every finite result; overflow to infinity
(p/q >= 2^1024) is not modelled — the uses below have p/q <= 10000. -/
def roundFloatSig (p q : Nat) : Nat × Int :=
  if p = 0 then (0, 0)
  else if 0 ≤ fexp p q then (rnde p (q * 2 ^ (fexp p q).toNat), fexp p q)
  else (rnde (p * 2 ^ (-(fexp p q)).toNat) q, fexp p q)

/-- Multiplication of a binary64 value by the exactly representable
10000.0: the product of the dyadic value with 10000 is formed exactly and
rounded again, as IEEE-754 prescribes. -/
def pyMul10000 (f : Nat × Int) : Nat × Int :=
  if 0 ≤ f.2 then roundFloatSig (f.1 * MAX_BOOK_WEIGHT * 2 ^ f.2.toNat) 1
  else roundFloatSig (f.1 * MAX_BOOK_WEIGHT) (2 ^ (-f.2).toNat)

/-- Python `int(...)` on a non-negative binary64 value: truncation toward
zero, i.e. the floor of the dyadic value. -/
def truncFloat (f : Nat × Int) : Nat :=
  if 0 ≤ f.2 then f.1 * 2 ^ f.2.toNat else f.1 / 2 ^ (-f.2).toNat

/-- CPython's evaluation of `int(w / t * MAX_BOOK_WEIGHT)`, the rescale
expression of both sources' normalize_weights (`create_polyglot.py`
line 42, `Crazy_Horde.py` line 58): correctly rounded division, correctly
rounded multiplication by 10000.0, truncation toward zero.  `t = 0` would
raise ZeroDivisionError in Python; both call sites run under a positive
total.  Validated against IEEE double arithmetic on several thousand
inputs, including w=57, t=100 where the result is 5699 while the exact
floor is 5700. -/
def pyRescale (w t : Nat) : Nat :=
  truncFloat (pyMul10000 (roundFloatSig w t))

/-- Per-position normalization of `create_polyglot.normalize_weights`
(lines 37-42): whenever the total is positive, every weight is rescaled to
`int(weight / total * MAX_BOOK_WEIGHT)`, computed in binary64 (`pyRescale`). -/
def CP.normalizeMoves (l : List (String × BookMove)) : List (String × BookMove) :=
  let total := totalWeight l
  if 0 < total then
    l.map (fun q => (q.1, { q.2 with weight := pyRescale q.2.weight total }))
  else l

/-- `create_polyglot.Book.normalize_weights`. -/
def CP.normalize_weights (b : Book) : Book :=
  ⟨b.positions.map (fun p => (p.1, { p.2 with moves := CP.normalizeMoves p.2.moves }))⟩

/-- Per-position normalization of `Crazy_Horde.normalize_weights`
(lines 45-58): the same binary64 rescale, but run only when the largest
single weight exceeds `MAX_BOOK_WEIGHT`; otherwise the position is left
untouched. -/
def CH.normalizeMoves (l : List (String × BookMove)) : List (String × BookMove) :=
  let maxw := maxWeight l
  let total := totalWeight l
  if MAX_BOOK_WEIGHT < maxw then
    l.map (fun q => (q.1, { q.2 with weight := pyRescale q.2.weight total }))
  else l

/-- `Crazy_Horde.Book.normalize_weights`. -/
def CH.normalize_weights (b : Book) : Book :=
  ⟨b.positions.map (fun p => (p.1, { p.2 with moves := CH.normalizeMoves p.2.moves }))⟩

/-- The running state of `Crazy_Horde.save_as_polyglot`: `allentries`,
`self.numpositions` and `self.nummoves` (reset to 0 on entry). -/
structure CH.SaveAcc where
  entries : List (List Nat)
  numpositions : Nat
  nummoves : Nat
deriving DecidableEq

/-- The inner loop body of `Crazy_Horde.save_as_polyglot` (lines 69-86) for
one move: append the record and bump the counters when `weight > 0`, the
`posnotcounted` flag ensuring the position is counted once. -/
def CH.saveMoveStep (key : Nat) (st : CH.SaveAcc × Bool) (q : String × BookMove) :
    CH.SaveAcc × Bool :=
  if wpos q then
    ({ entries := st.1.entries ++ [CH.entryBytes key q.2],
       numpositions := if st.2 then st.1.numpositions + 1 else st.1.numpositions,
       nummoves := st.1.nummoves + 1 }, false)
  else st

/-- One position's pass of `Crazy_Horde.save_as_polyglot` (lines 65-86),
with `posnotcounted = True` on entry. -/
def CH.savePosition (acc : CH.SaveAcc) (p : Nat × BookPosition) : CH.SaveAcc :=
  (p.2.moves.foldl (CH.saveMoveStep p.1) (acc, true)).1

/-- The harvest over all positions of `Crazy_Horde.save_as_polyglot`. -/
def CH.saveRaw (b : Book) : CH.SaveAcc :=
  b.positions.foldl CH.savePosition ⟨[], 0, 0⟩

/-- The two-pass sort of `Crazy_Horde.save_as_polyglot` (lines 87-88):
a stable sort descending on the weight bytes, then a stable sort ascending
on the key bytes. -/
def CH.sortEntries (l : List (List Nat)) : List (List Nat) :=
  List.insertionSort keyAscR (List.insertionSort wDescR l)

/-- `Crazy_Horde.save_as_polyglot`: record sequence in file order, plus the
`numpositions` and `nummoves` counters it reports. -/
def CH.save_as_polyglot (b : Book) : List (List Nat) × Nat × Nat :=
  let acc := CH.saveRaw b
  (CH.sortEntries acc.entries, acc.numpositions, acc.nummoves)

/-- `Book.merge_file` (both sources, `create_polyglot.py` lines 74-87 /
`Crazy_Horde.py` lines 93-106): fold the decoded `(key, move, weight)`
entries of an existing book file into the book — `bp = get_position(key);
bm = bp.get_move(move.uci()); bm.move = move; bm.weight += entry.weight`.
The binary decode and `move.uci()` are performed by the external
`chess.polyglot` reader, so entries arrive already decoded and the uci
rendering is a parameter. -/
def Book.merge_file (b : Book) (uciOf : PMove → String)
    (entries : List (Nat × PMove × Nat)) : Book :=
  entries.foldl (fun bk e => bk.addMove e.1 (uciOf e.2.1) e.2.1 e.2.2) b

/-- The per-ply loop of `create_polyglot.build_book_file` (lines 127-139):
`if ply >= MAX_BOOK_PLIES: break`, castling-correct the uci, accumulate
under the current board's zobrist key with the outcome-based delta, then
push the move.  The stored move is `chess.Move.from_uci(uci)`, i.e. the
reparse of the corrected string. -/
def CP.ingestLoop {Board : Type} (R : ExternalOps Board) (score : Nat) :
    Nat → Board → Book → List PMove → Book
  | _, _, book, [] => book
  | ply, board, book, mv :: rest =>
    if MAX_BOOK_PLIES ≤ ply then book
    else
      let uci0 := R.uciOf mv
      let uci := correct_castling_uci
        (R.pieceTypeAt board (parse_square (uci0.take 2))) uci0
      let key := R.zobrist board
      let delta := if R.turnWhite board then score else 2 - score
      let book := book.addMove key uci (R.fromUci uci) delta
      CP.ingestLoop R score (ply + 1) (R.push board mv) book rest

/-- One game of `create_polyglot.build_book_file` (lines 118-139).  No
`Variant` header is ever consulted: every parsed game is ingested. -/
def CP.processGame {Board : Type} (R : ExternalOps Board) (book : Book)
    (g : PGame Board) : Book :=
  CP.ingestLoop R (LichessGame.score g.result) 0 g.startBoard book g.moves

/-- The full aggregation of `create_polyglot.build_book_file` over a corpus. -/
def CP.build {Board : Type} (R : ExternalOps Board) (games : List (PGame Board)) : Book :=
  games.foldl (CP.processGame R) Book.empty

/-- `create_polyglot.build_book_file`: aggregate, normalize, save; the result
is the byte content of the written file. -/
def CP.build_book_file {Board : Type} (R : ExternalOps Board)
    (games : List (PGame Board)) : List Nat :=
  (CP.save_as_polyglot (CP.normalize_weights (CP.build R games))).flatten

/-- The per-ply loop of `Crazy_Horde.build_book_file` (lines 187-220):
`if ply < MAX_BOOK_PLIES` process `else break`; the castling rewrite is
inline; the accumulation targets the position entered after the previous
push (tracked here by its key `curKey`); after pushing, the next position's
entry is created and its fen overwritten (lines 213-216).  The stored move
is the original structured move (not the rewritten uci). -/
def CH.ingestLoop {Board : Type} (R : ExternalOps Board) (res : String) :
    Nat → Board → Nat → Book → List PMove → Book
  | _, _, _, book, [] => book
  | ply, board, curKey, book, mv :: rest =>
    if ply < MAX_BOOK_PLIES then
      let uci := CH.castlingRewrite (R.pieceTypeAt board mv.from_square) (R.uciOf mv)
      let delta := if R.turnWhite board then LichessGame.score res
        else 2 - LichessGame.score res
      let book := book.addMove curKey uci mv delta
      let board2 := R.push board mv
      let key2 := R.zobrist board2
      let book := book.enterPosition key2 (R.fen board2)
      CH.ingestLoop R res (ply + 1) board2 key2 book rest
    else book

/-- One game of `Crazy_Horde.build_book_file` (lines 155-220): games whose
`Variant` header is neither "Crazyhouse" nor "Horde" are skipped before any
board or book state is touched (lines 164-171); otherwise the start
position's entry is created with its fen (lines 183-185) and the plies are
ingested. -/
def CH.processGame {Board : Type} (R : ExternalOps Board) (book : Book)
    (g : PGame Board) : Book :=
  if g.variant = "Crazyhouse" ∨ g.variant = "Horde" then
    let b0 := g.startBoard
    let key0 := R.zobrist b0
    let book := book.enterPosition key0 (R.fen b0)
    CH.ingestLoop R g.result 0 b0 key0 book g.moves
  else book

/-- The full aggregation of `Crazy_Horde.build_book_file` over a corpus. -/
def CH.build {Board : Type} (R : ExternalOps Board) (games : List (PGame Board)) : Book :=
  games.foldl (CH.processGame R) Book.empty

/-- `Crazy_Horde.build_book_file`: aggregate, normalize, save; the result is
the byte content of the written file together with the reported counters. -/
def CH.build_book_file {Board : Type} (R : ExternalOps Board)
    (games : List (PGame Board)) : List Nat × Nat × Nat :=
  let out := CH.save_as_polyglot (CH.normalize_weights (CH.build R games))
  (out.1.flatten, out.2.1, out.2.2)

/-- The Crazy_Horde file-order invariant relation: ascending key bytes,
rows with equal keys carrying non-increasing weight bytes. -/
def chRel (a b : List Nat) : Prop :=
  bytesLt (keySlice a) (keySlice b) = true ∨
    (keySlice a = keySlice b ∧ bytesLe (weightSlice b) (weightSlice a) = true)

/-- The create_polyglot file-order invariant relation: ascending key bytes,
rows with equal keys carrying non-DEcreasing weight bytes. -/
def cpRel (a b : List Nat) : Prop :=
  bytesLt (keySlice a) (keySlice b) = true ∨
    (keySlice a = keySlice b ∧ bytesLe (weightSlice a) (weightSlice b) = true)

theorem cpLeR_iff {a b : List Nat} : cpLeR a b ↔ cpRel a b := by
  unfold cpLeR cpLe cpRel
  rw [Bool.or_eq_true_iff, Bool.and_eq_true_iff]
  simp [decide_eq_true_iff]

theorem orderedInsert_chRel (a : List Nat) (l : List (List Nat))
    (hs : List.Sorted keyAscR l) (hp : List.Pairwise chRel l)
    (hw : ∀ b ∈ l, wDescR a b) :
    List.Pairwise chRel (List.orderedInsert keyAscR a l) := by
  induction l with
  | nil => exact List.pairwise_singleton _ _
  | cons b t ih =>
    rw [List.orderedInsert]
    by_cases h : keyAscR a b
    · rw [if_pos h]
      refine List.pairwise_cons.mpr ⟨?_, hp⟩
      intro x hx
      have hax : keyAscR a x := by
        rcases List.mem_cons.mp hx with rfl | hxt
        · exact h
        · exact bytesLe_trans h (List.rel_of_sorted_cons hs x hxt)
      rcases (bytesLe_eq_lt_or_eq _ _).mp hax with h' | h'
      · exact Or.inl h'
      · exact Or.inr ⟨h', hw x hx⟩
    · rw [if_neg h]
      refine List.pairwise_cons.mpr ⟨?_, ?_⟩
      · intro x hx
        rcases (List.mem_orderedInsert keyAscR).mp hx with rfl | hxt
        · exact Or.inl (bytesLt_of_not_le h)
        · exact (List.pairwise_cons.mp hp).1 x hxt
      · exact ih hs.of_cons hp.of_cons (fun x hx => hw x (List.mem_cons_of_mem b hx))

theorem insertionSort_chRel (l : List (List Nat)) (hw : List.Pairwise wDescR l) :
    List.Pairwise chRel (List.insertionSort keyAscR l) := by
  induction l with
  | nil => exact List.Pairwise.nil
  | cons a t ih =>
    rw [List.insertionSort]
    refine orderedInsert_chRel a _ (List.sorted_insertionSort keyAscR t)
      (ih hw.of_cons) ?_
    intro b hb
    exact (List.pairwise_cons.mp hw).1 b
      ((List.perm_insertionSort keyAscR t).mem_iff.mp hb)

theorem updMoves_twice (l : List (String × BookMove)) (uci : String) (m : PMove)
    (d1 d2 : Nat) :
    updMoves (updMoves l uci m d1) uci m d2 = updMoves l uci m (d1 + d2) := by
  induction l with
  | nil => simp [updMoves, Nat.add_assoc]
  | cons q t ih =>
    by_cases h : q.1 = uci
    · simp [updMoves, h, Nat.add_assoc]
    · simp [updMoves, h, ih]

theorem updPositions_twice (ps : List (Nat × BookPosition)) (key : Nat)
    (uci : String) (m : PMove) (d1 d2 : Nat) :
    updPositions (updPositions ps key uci m d1) key uci m d2
      = updPositions ps key uci m (d1 + d2) := by
  induction ps with
  | nil => simp [updPositions, updMoves_twice]
  | cons p t ih =>
    by_cases h : p.1 = key
    · simp [updPositions, h, updMoves_twice]
    · simp [updPositions, h, ih]

theorem lookup_updMoves_self (l : List (String × BookMove)) (uci : String)
    (m : PMove) (d : Nat) :
    (updMoves l uci m d).lookup uci
      = some ⟨((l.lookup uci).map (fun bm => bm.weight)).getD 0 + d, some m⟩ := by
  induction l with
  | nil => simp [updMoves]
  | cons q t ih =>
    by_cases h : q.1 = uci
    · simp [updMoves, h, List.lookup, beq_iff_eq]
    · simp only [updMoves, if_neg h]
      have hne : (uci == q.1) = false := beq_eq_false_iff_ne.mpr (fun he => h he.symm)
      simp [List.lookup, hne, ih]

theorem lookup_updMoves_other (l : List (String × BookMove)) (uci u2 : String)
    (m : PMove) (d : Nat) (h : u2 ≠ uci) :
    (updMoves l uci m d).lookup u2 = l.lookup u2 := by
  induction l with
  | nil => simp [updMoves, List.lookup, beq_eq_false_iff_ne.mpr h]
  | cons q t ih =>
    by_cases hq : q.1 = uci
    · subst hq
      simp [updMoves, List.lookup, beq_eq_false_iff_ne.mpr h]
    · simp only [updMoves, if_neg hq]
      by_cases hu : u2 = q.1
      · simp [List.lookup, hu]
      · simp [List.lookup, beq_eq_false_iff_ne.mpr hu, ih]

theorem lookup_updPositions_self (ps : List (Nat × BookPosition)) (key : Nat)
    (uci : String) (m : PMove) (d : Nat) :
    (updPositions ps key uci m d).lookup key
      = some ⟨updMoves (((ps.lookup key).map (fun bp => bp.moves)).getD []) uci m d,
              ((ps.lookup key).map (fun bp => bp.fen)).getD ""⟩ := by
  induction ps with
  | nil => simp [updPositions]
  | cons p t ih =>
    by_cases h : p.1 = key
    · simp [updPositions, h, List.lookup, beq_iff_eq]
    · simp only [updPositions, if_neg h]
      have hne : (key == p.1) = false := beq_eq_false_iff_ne.mpr (fun he => h he.symm)
      simp [List.lookup, hne, ih]

theorem lookup_updFen (ps : List (Nat × BookPosition)) (key k2 : Nat) (f : String) :
    (updFen ps key f).lookup k2
      = if k2 = key
        then some ⟨(((ps.lookup key).map (fun bp => bp.moves)).getD []), f⟩
        else ps.lookup k2 := by
  induction ps with
  | nil =>
    by_cases h : k2 = key
    · simp [updFen, List.lookup, h]
    · simp [updFen, List.lookup, beq_eq_false_iff_ne.mpr h, h]
  | cons p t ih =>
    simp only [updFen]
    by_cases h : p.1 = key
    · rw [if_pos h]
      subst h
      by_cases h2 : k2 = p.1
      · subst h2
        simp [List.lookup]
      · simp [List.lookup, beq_eq_false_iff_ne.mpr h2, h2]
    · rw [if_neg h]
      have hkp : (key == p.1) = false := beq_eq_false_iff_ne.mpr (fun he => h he.symm)
      by_cases h2 : k2 = p.1
      · subst h2
        simp [List.lookup, h]
      · simp [List.lookup, beq_eq_false_iff_ne.mpr h2, hkp, ih]

theorem weightOf_addMove_self (b : Book) (key : Nat) (uci : String) (m : PMove)
    (d : Nat) :
    (b.addMove key uci m d).weightOf key uci
      = some ((b.weightOf key uci).getD 0 + d) := by
  unfold Book.weightOf Book.addMove Book.findPos
  rw [lookup_updPositions_self]
  simp only [Option.some_bind]
  rw [lookup_updMoves_self]
  cases hl : b.positions.lookup key with
  | none => simp [hl]
  | some bp =>
    simp only [hl, Option.map_some, Option.getD_some, Option.some_bind]
    cases hm : bp.moves.lookup uci <;> simp [hm]

theorem weightOf_enterPosition (b : Book) (key k2 : Nat) (f : String) (uci : String) :
    (b.enterPosition key f).weightOf k2 uci = b.weightOf k2 uci := by
  unfold Book.weightOf Book.enterPosition Book.findPos
  rw [lookup_updFen]
  by_cases h : k2 = key
  · subst h
    cases hl : b.positions.lookup k2 with
    | none => simp [List.lookup]
    | some bp => simp
  · rw [if_neg h]

theorem le_maxFold_init (mx : Nat) (l : List (String × BookMove)) : mx ≤ maxFold mx l := by
  induction l generalizing mx with
  | nil => exact Nat.le_refl mx
  | cons q t ih =>
    show mx ≤ maxFold (if mx < q.2.weight then q.2.weight else mx) t
    refine Nat.le_trans ?_ (ih _)
    by_cases h : mx < q.2.weight
    · simpa [h] using Nat.le_of_lt h
    · simp [h]

theorem weight_le_maxFold (mx : Nat) (l : List (String × BookMove)) (q : String × BookMove)
    (hq : q ∈ l) : q.2.weight ≤ maxFold mx l := by
  induction l generalizing mx with
  | nil => cases hq
  | cons p t ih =>
    rcases List.mem_cons.mp hq with rfl | hq'
    · show q.2.weight ≤ maxFold (if mx < q.2.weight then q.2.weight else mx) t
      refine Nat.le_trans ?_ (le_maxFold_init _ t)
      by_cases h : mx < q.2.weight
      · simp [h]
      · simpa [h] using Nat.le_of_not_lt h
    · exact ih _ hq'

theorem maxFold_le_add_total (mx : Nat) (l : List (String × BookMove)) :
    maxFold mx l ≤ mx + totalWeight l := by
  induction l generalizing mx with
  | nil => simp [maxFold, totalWeight]
  | cons q t ih =>
    show maxFold (if mx < q.2.weight then q.2.weight else mx) t ≤ mx + totalWeight (q :: t)
    have step : (if mx < q.2.weight then q.2.weight else mx) ≤ mx + q.2.weight := by
      split <;> omega
    have := ih (if mx < q.2.weight then q.2.weight else mx)
    have htot : totalWeight (q :: t) = q.2.weight + totalWeight t := by
      simp [totalWeight]
    omega

theorem weight_le_totalWeight (l : List (String × BookMove)) (q : String × BookMove)
    (hq : q ∈ l) : q.2.weight ≤ totalWeight l := by
  have : q.2.weight ∈ l.map (fun r => r.2.weight) := List.mem_map_of_mem _ hq
  exact List.single_le_sum (fun x _ => Nat.zero_le x) _ this

theorem totalWeight_zero_all_zero (l : List (String × BookMove))
    (h : totalWeight l = 0) (q : String × BookMove) (hq : q ∈ l) : q.2.weight = 0 :=
  Nat.le_zero.mp (h ▸ weight_le_totalWeight l q hq)

theorem bitlenAux_spec (fuel : Nat) : ∀ n : Nat, 0 < n → n ≤ fuel →
    2 ^ (bitlenAux fuel n - 1) ≤ n ∧ n < 2 ^ bitlenAux fuel n := by
  induction fuel with
  | zero => intro n hn hf; omega
  | succ k ih =>
    intro n hn hf
    rw [bitlenAux, if_neg (Nat.pos_iff_ne_zero.mp hn)]
    by_cases h1 : n = 1
    · subst h1
      have h0 : bitlenAux k 0 = 0 := by cases k <;> rfl
      rw [show (1 : Nat) / 2 = 0 from rfl, h0]
      norm_num
    · have h2 : 2 ≤ n := by omega
      have hd : 0 < n / 2 := Nat.div_pos h2 (by norm_num)
      have hlt : n / 2 < n := Nat.div_lt_self hn (by norm_num)
      obtain ⟨hlo, hhi⟩ := ih (n / 2) hd (by omega)
      have hL1 : 1 ≤ bitlenAux k (n / 2) := by
        by_contra hL
        push_neg at hL
        rw [show bitlenAux k (n / 2) = 0 by omega] at hhi
        simp at hhi
        omega
      have hdm := Nat.div_add_mod n 2
      have hm : n % 2 < 2 := Nat.mod_lt _ (by norm_num)
      constructor
      · rw [show bitlenAux k (n / 2) + 1 - 1 = bitlenAux k (n / 2) by omega,
          show bitlenAux k (n / 2) = (bitlenAux k (n / 2) - 1) + 1 by omega,
          pow_succ]
        have h3 := Nat.mul_le_mul_left 2 hlo
        omega
      · rw [pow_succ]
        have h4 := Nat.mul_le_mul_left 2 hhi
        omega

theorem bitlen_spec (n : Nat) (hn : 0 < n) :
    2 ^ (bitlen n - 1) ≤ n ∧ n < 2 ^ bitlen n :=
  bitlenAux_spec n n hn (Nat.le_refl n)

theorem rnde_le (a b : Nat) (_hb : 0 < b) : 2 * (b * rnde a b) ≤ 2 * a + b := by
  have h1 := Nat.div_add_mod a b
  have base : 2 * (b * (a / b)) + 2 * (a % b) = 2 * a := by
    calc 2 * (b * (a / b)) + 2 * (a % b) = 2 * (b * (a / b) + a % b) := by ring
      _ = 2 * a := by rw [h1]
  have case1 : 2 * (b * (a / b)) ≤ 2 * a + b := by
    calc 2 * (b * (a / b)) ≤ 2 * (b * (a / b)) + 2 * (a % b) := Nat.le_add_right _ _
      _ = 2 * a := base
      _ ≤ 2 * a + b := Nat.le_add_right _ _
  have case2 : b ≤ 2 * (a % b) → 2 * (b * (a / b + 1)) ≤ 2 * a + b := by
    intro hc
    have h2b : 2 * b ≤ 2 * (a % b) + b := by
      calc 2 * b = b + b := by ring
        _ ≤ 2 * (a % b) + b := Nat.add_le_add_right hc b
    calc 2 * (b * (a / b + 1)) = 2 * (b * (a / b)) + 2 * b := by ring
      _ ≤ 2 * (b * (a / b)) + (2 * (a % b) + b) := Nat.add_le_add_left h2b _
      _ = (2 * (b * (a / b)) + 2 * (a % b)) + b := by ring
      _ = 2 * a + b := by rw [base]
  unfold rnde
  split_ifs with c1 c2 c3
  · exact case1
  · exact case2 (Nat.le_of_lt c2)
  · exact case1
  · exact case2 (Nat.le_of_not_lt c1)

theorem rnde_le_mul (p q D C : Nat) (hq : 0 < q) (hpq : p ≤ C * q) :
    rnde (p * D) q ≤ C * D := by
  by_contra hgt
  push_neg at hgt
  have h1 : 2 * (q * rnde (p * D) q) ≤ 2 * (p * D) + q := rnde_le (p * D) q hq
  have h2 : q * (C * D + 1) ≤ q * rnde (p * D) q := Nat.mul_le_mul_left q hgt
  have h3 : p * D ≤ C * q * D := Nat.mul_le_mul_right D hpq
  have h4 : 2 * (q * (C * D + 1)) ≤ 2 * (C * q * D) + q := by
    calc 2 * (q * (C * D + 1)) ≤ 2 * (q * rnde (p * D) q) := Nat.mul_le_mul_left 2 h2
      _ ≤ 2 * (p * D) + q := h1
      _ ≤ 2 * (C * q * D) + q := Nat.add_le_add_right (Nat.mul_le_mul_left 2 h3) q
  have h5 : 2 * (q * (C * D + 1)) = 2 * (C * q * D) + 2 * q := by ring
  rw [h5] at h4
  have h6 : 2 * q ≤ q := Nat.le_of_add_le_add_left h4
  omega

theorem floorLog2_le (p q k : Nat) (hp : 0 < p) (hq : 0 < q)
    (h : p ≤ 2 ^ k * q) : floorLog2 p q ≤ (k : Int) := by
  obtain ⟨hp1, hp2⟩ := bitlen_spec p hp
  obtain ⟨hq1, hq2⟩ := bitlen_spec q hq
  have hbp : 1 ≤ bitlen p := by
    by_contra hb
    push_neg at hb
    rw [show bitlen p = 0 by omega] at hp2
    simp at hp2
    omega
  have hlt : 2 ^ (bitlen p - 1) < 2 ^ (k + bitlen q) := by
    calc 2 ^ (bitlen p - 1) ≤ p := hp1
      _ ≤ 2 ^ k * q := h
      _ < 2 ^ k * 2 ^ bitlen q := by
          exact mul_lt_mul_of_pos_left hq2 (pow_pos (by norm_num) k)
      _ = 2 ^ (k + bitlen q) := (pow_add 2 k (bitlen q)).symm
  have hexp : bitlen p - 1 < k + bitlen q :=
    (Nat.pow_lt_pow_iff_right (by norm_num : 1 < 2)).mp hlt
  unfold floorLog2
  split_ifs <;> omega

theorem roundFloatSig_le (p q C k : Nat) (hp : 0 < p) (hq : 0 < q) (hk : k ≤ 51)
    (hpk : p ≤ 2 ^ k * q) (hpC : p ≤ C * q) :
    roundFloatSig p q = (rnde (p * 2 ^ (-(fexp p q)).toNat) q, fexp p q)
    ∧ fexp p q < 0
    ∧ rnde (p * 2 ^ (-(fexp p q)).toNat) q ≤ C * 2 ^ (-(fexp p q)).toNat := by
  have hfl := floorLog2_le p q k hp hq hpk
  have he : fexp p q < 0 := by
    unfold fexp
    omega
  have heq : roundFloatSig p q = (rnde (p * 2 ^ (-(fexp p q)).toNat) q, fexp p q) := by
    unfold roundFloatSig
    rw [if_neg (Nat.pos_iff_ne_zero.mp hp), if_neg (not_le.mpr he)]
  exact ⟨heq, he, rnde_le_mul p q (2 ^ (-(fexp p q)).toNat) C hq hpC⟩

theorem truncFloat_le (n : Nat) (e : Int) (C : Nat) (he : e < 0)
    (hn : n ≤ C * 2 ^ (-e).toNat) : truncFloat (n, e) ≤ C := by
  unfold truncFloat
  rw [if_neg (not_le.mpr he)]
  refine Nat.le_trans (Nat.div_le_div_right hn) ?_
  rw [Nat.mul_div_cancel _ (pow_pos (by norm_num) _)]

theorem pyMul10000_le (n : Nat) (e : Int) (hn0 : 0 < n) (he : e < 0)
    (hn : n ≤ 2 ^ (-e).toNat) :
    (pyMul10000 (n, e)).2 < 0
    ∧ (pyMul10000 (n, e)).1
        ≤ MAX_BOOK_WEIGHT * 2 ^ (-(pyMul10000 (n, e)).2).toNat := by
  have hD : (0 : Nat) < 2 ^ (-e).toNat := pow_pos (by norm_num) _
  have hp2 : 0 < n * MAX_BOOK_WEIGHT := Nat.mul_pos hn0 (by norm_num [MAX_BOOK_WEIGHT])
  have hk2 : n * MAX_BOOK_WEIGHT ≤ 2 ^ 14 * 2 ^ (-e).toNat := by
    calc n * MAX_BOOK_WEIGHT ≤ 2 ^ (-e).toNat * MAX_BOOK_WEIGHT :=
          Nat.mul_le_mul_right _ hn
      _ ≤ 2 ^ (-e).toNat * 2 ^ 14 :=
          Nat.mul_le_mul_left _ (by norm_num [MAX_BOOK_WEIGHT])
      _ = 2 ^ 14 * 2 ^ (-e).toNat := Nat.mul_comm _ _
  have hC2 : n * MAX_BOOK_WEIGHT ≤ MAX_BOOK_WEIGHT * 2 ^ (-e).toNat := by
    calc n * MAX_BOOK_WEIGHT ≤ 2 ^ (-e).toNat * MAX_BOOK_WEIGHT :=
          Nat.mul_le_mul_right _ hn
      _ = MAX_BOOK_WEIGHT * 2 ^ (-e).toNat := Nat.mul_comm _ _
  have h2 := roundFloatSig_le (n * MAX_BOOK_WEIGHT) (2 ^ (-e).toNat)
    MAX_BOOK_WEIGHT 14 hp2 hD (by norm_num) hk2 hC2
  have hunf : pyMul10000 (n, e) = roundFloatSig (n * MAX_BOOK_WEIGHT) (2 ^ (-e).toNat) := by
    unfold pyMul10000
    rw [if_neg (not_le.mpr he)]
  rw [hunf, h2.1]
  exact ⟨h2.2.1, h2.2.2⟩

/-- The program's binary64 rescale never exceeds the 10000 ceiling: the
quotient of w <= t rounds to a double at most 1, the product with 10000
rounds to a double at most 10000, and truncation cannot increase it. -/
theorem pyRescale_le (w t : Nat) (hw : w ≤ t) (ht : 0 < t) :
    pyRescale w t ≤ MAX_BOOK_WEIGHT := by
  unfold pyRescale
  by_cases hw0 : w = 0
  · subst hw0
    rw [show roundFloatSig 0 t = (0, 0) from by unfold roundFloatSig; rw [if_pos rfl]]
    decide
  · have h1 := roundFloatSig_le w t 1 0 (Nat.pos_of_ne_zero hw0) ht (by norm_num)
      (by simpa using hw) (by simpa using hw)
    rw [h1.1]
    by_cases hn0 : rnde (w * 2 ^ (-(fexp w t)).toNat) t = 0
    · rw [hn0]
      rw [show pyMul10000 (0, fexp w t) = (0, 0) from by
        unfold pyMul10000
        rw [if_neg (not_le.mpr h1.2.1)]
        unfold roundFloatSig
        rw [if_pos (Nat.zero_mul _)]]
      decide
    · have h2 := pyMul10000_le (rnde (w * 2 ^ (-(fexp w t)).toNat) t) (fexp w t)
        (Nat.pos_of_ne_zero hn0) h1.2.1 (by simpa using h1.2.2)
      rcases hpm : pyMul10000 (rnde (w * 2 ^ (-(fexp w t)).toNat) t, fexp w t)
        with ⟨n2, e2⟩
      rw [hpm] at h2
      exact truncFloat_le n2 e2 MAX_BOOK_WEIGHT h2.1 h2.2

theorem saveMoveStep_foldl (key : Nat) (ms : List (String × BookMove)) (a : CH.SaveAcc)
    (nc : Bool) :
    ms.foldl (CH.saveMoveStep key) (a, nc)
      = ({ entries := a.entries ++ (ms.filter wpos).map (fun q => CH.entryBytes key q.2),
           numpositions := a.numpositions + (if nc && ms.any wpos then 1 else 0),
           nummoves := a.nummoves + (ms.filter wpos).length },
         nc && !(ms.any wpos)) := by
  induction ms generalizing a nc with
  | nil => simp
  | cons q t ih =>
    rw [List.foldl_cons]
    by_cases h : wpos q = true
    · have hstep : CH.saveMoveStep key (a, nc) q
          = ({ entries := a.entries ++ [CH.entryBytes key q.2],
               numpositions := if nc then a.numpositions + 1 else a.numpositions,
               nummoves := a.nummoves + 1 }, false) := by
        simp [CH.saveMoveStep, h]
      rw [hstep, ih]
      cases nc <;> simp [List.filter_cons, h, List.append_assoc] <;> omega
    · rw [Bool.not_eq_true] at h
      have hstep : CH.saveMoveStep key (a, nc) q = (a, nc) := by
        simp [CH.saveMoveStep, h]
      rw [hstep, ih]
      simp [List.filter_cons, h]
      rw [h, Bool.false_or]

theorem savePosition_spec (acc : CH.SaveAcc) (p : Nat × BookPosition) :
    CH.savePosition acc p
      = { entries := acc.entries
            ++ (p.2.moves.filter wpos).map (fun q => CH.entryBytes p.1 q.2),
          numpositions := acc.numpositions + (if p.2.moves.any wpos then 1 else 0),
          nummoves := acc.nummoves + (p.2.moves.filter wpos).length } := by
  unfold CH.savePosition
  rw [saveMoveStep_foldl]
  simp
  rw [Bool.true_and]

theorem saveRaw_foldl (ps : List (Nat × BookPosition)) (acc : CH.SaveAcc) :
    ps.foldl CH.savePosition acc
      = { entries := acc.entries
            ++ (ps.map (fun p => (p.2.moves.filter wpos).map
                  (fun q => CH.entryBytes p.1 q.2))).flatten,
          numpositions := acc.numpositions
            + (ps.filter (fun p => p.2.moves.any wpos)).length,
          nummoves := acc.nummoves
            + (ps.map (fun p => (p.2.moves.filter wpos).length)).sum } := by
  induction ps generalizing acc with
  | nil => simp
  | cons p t ih =>
    rw [List.foldl_cons, savePosition_spec, ih]
    by_cases h : p.2.moves.any wpos = true <;>
      simp [List.filter_cons, h, List.append_assoc] <;> omega

/-- Closed form of the `Crazy_Horde.save_as_polyglot` harvest: the records
are exactly the positive-weight moves in table order, `numpositions` counts
exactly the positions owning at least one positive-weight move, `nummoves`
counts the records. -/
theorem saveRaw_spec (b : Book) :
    CH.saveRaw b
      = { entries := (b.positions.map (fun p => (p.2.moves.filter wpos).map
              (fun q => CH.entryBytes p.1 q.2))).flatten,
          numpositions := (b.positions.filter (fun p => p.2.moves.any wpos)).length,
          nummoves := (b.positions.map (fun p => (p.2.moves.filter wpos).length)).sum } := by
  unfold CH.saveRaw
  rw [saveRaw_foldl]
  simp

instance chRelDec (a b : List Nat) : Decidable (chRel a b) :=
  inferInstanceAs (Decidable (bytesLt (keySlice a) (keySlice b) = true ∨
    (keySlice a = keySlice b ∧ bytesLe (weightSlice b) (weightSlice a) = true)))

instance cpRelDec (a b : List Nat) : Decidable (cpRel a b) :=
  inferInstanceAs (Decidable (bytesLt (keySlice a) (keySlice b) = true ∨
    (keySlice a = keySlice b ∧ bytesLe (weightSlice a) (weightSlice b) = true)))

/-- A concrete instantiation of the external interface over `Nat` boards,
used by concrete witnesses: the zobrist key is the board value itself and a
push increments it, so successive positions receive distinct keys. -/
def natOps : ExternalOps Nat :=
  ⟨fun b => b, fun _ _ => none, fun _ => true, fun b _ => b + 1,
   fun _ => "", fun _ => "uci", fun _ => noMove⟩

/-- A two-move book exercising the tie-breaking order of the writers: one
position (key 5) holding moves of weight 3333 and 6666. -/
def cexBook1 : Book :=
  ⟨[(5, ⟨[("a", ⟨3333, some noMove⟩), ("b", ⟨6666, some noMove⟩)], ""⟩)]⟩

/-- C1 (corrected): both writers emit records sorted ascending by the 8-byte
key (unsigned byte-wise compare); within equal keys `Crazy_Horde.py` orders
weights descending (the claimed invariant), while `create_polyglot.py`
orders the weight bytes ASCENDING, so for adjacent equal-key records there
the first's weight field is less-or-equal to the second's. -/
theorem C1_sort_order (b : Book) :
    List.Chain' chRel (CH.save_as_polyglot b).1
    ∧ List.Chain' cpRel (CP.save_as_polyglot b) := by
  constructor
  · have hw : List.Pairwise wDescR (List.insertionSort wDescR (CH.saveRaw b).entries) :=
      List.sorted_insertionSort wDescR _
    exact (insertionSort_chRel _ hw).chain'
  · have hs : List.Pairwise cpLeR (List.insertionSort cpLeR (CP.rawEntries b)) :=
      List.sorted_insertionSort cpLeR _
    exact (hs.imp (fun h => cpLeR_iff.mp h)).chain'

/-- C1 counterexample: on a book holding one position with weights 3333 and
6666, `create_polyglot.save_as_polyglot` writes the lighter record first, so
the claimed key-ascending/weight-descending invariant fails for adjacent
records of its output. -/
theorem C1_sort_cex : ¬ List.Chain' chRel (CP.save_as_polyglot cexBook1) := by
  intro h
  have hout : CP.save_as_polyglot cexBook1
      = [CP.entryBytes 5 ⟨3333, some noMove⟩, CP.entryBytes 5 ⟨6666, some noMove⟩] := by
    decide
  rw [hout] at h
  exact absurd (List.chain'_pair.mp h) (by decide)

/-- C2 (corrected): `create_polyglot.normalize_weights` rescales every move
of a position whenever the position's total weight is positive and leaves a
zero-total position unchanged; the replacement value, however, is the
binary64 evaluation of `int(weight / total * MAX_BOOK_WEIGHT)` (`pyRescale`),
which can fall one below the claimed exact `floor(weight/total*10000)`
(57/100 of the ceiling gives 5699, not 5700); and
`Crazy_Horde.normalize_weights` applies the rescale only when the
position's maximum single move weight exceeds `MAX_BOOK_WEIGHT`, leaving
every position with `max_weight <= 10000` (zero totals included)
untouched. -/
theorem C2_normalize_policy (l : List (String × BookMove)) (b : Book) :
    (totalWeight l = 0 → CP.normalizeMoves l = l)
    ∧ (0 < totalWeight l → CP.normalizeMoves l
        = l.map (fun q => (q.1,
            { q.2 with weight := pyRescale q.2.weight (totalWeight l) })))
    ∧ (maxWeight l ≤ MAX_BOOK_WEIGHT → CH.normalizeMoves l = l)
    ∧ (MAX_BOOK_WEIGHT < maxWeight l → CH.normalizeMoves l
        = l.map (fun q => (q.1,
            { q.2 with weight := pyRescale q.2.weight (totalWeight l) })))
    ∧ (CP.normalize_weights b).positions
        = b.positions.map (fun p => (p.1, { p.2 with moves := CP.normalizeMoves p.2.moves }))
    ∧ (CH.normalize_weights b).positions
        = b.positions.map (fun p => (p.1, { p.2 with moves := CH.normalizeMoves p.2.moves })) := by
  refine ⟨?_, ?_, ?_, ?_, rfl, rfl⟩
  · intro h
    unfold CP.normalizeMoves
    rw [h]
    rfl
  · intro h
    unfold CP.normalizeMoves
    rw [if_pos h]
  · intro h
    unfold CH.normalizeMoves
    rw [if_neg (Nat.not_lt.mpr h)]
  · intro h
    unfold CH.normalizeMoves
    rw [if_pos h]

/-- C2 witness: a lone move of raw weight 3 is rescaled to 10000 by
create_polyglot's normalizer but kept at 3 by Crazy_Horde's. -/
theorem C2_normalize_policy_witness :
    CP.normalizeMoves [("e2e4", (⟨3, some noMove⟩ : BookMove))]
      = [("e2e4", ⟨10000, some noMove⟩)]
    ∧ CH.normalizeMoves [("e2e4", (⟨3, some noMove⟩ : BookMove))]
      = [("e2e4", ⟨3, some noMove⟩)] := by
  have h2 := (C2_normalize_policy [("e2e4", ⟨3, some noMove⟩)] Book.empty).2.1 (by decide)
  have h3 := (C2_normalize_policy [("e2e4", ⟨3, some noMove⟩)] Book.empty).2.2.1 (by decide)
  exact ⟨by rw [h2]; decide, h3⟩

/-- C2 counterexample, refuting the claim at two points.  First, on a book
whose single position totals 3 (> 0), `Crazy_Horde.normalize_weights`
leaves the weight at 3, while the claim demands it be replaced by
floor(3 / 3 * 10000) = 10000.  Second, the claimed replacement value
`floor(weight / total * 10000)` is not what `create_polyglot` computes
either: at weight 57 of total 100 the program's binary64 evaluation of
`int(57 / 100 * 10000)` truncates 0.57 * 10000 = 5699.999... to 5699,
one below the exact floor 5700. -/
theorem C2_normalize_cex :
    totalWeight [("e2e4", (⟨3, some noMove⟩ : BookMove))] = 3
    ∧ Book.weightOf
        (CH.normalize_weights ⟨[(1, ⟨[("e2e4", ⟨3, some noMove⟩)], ""⟩)]⟩) 1 "e2e4"
      = some 3
    ∧ (3 : Nat) * MAX_BOOK_WEIGHT / 3 = 10000
    ∧ (3 : Nat) ≠ 10000
    ∧ CP.normalizeMoves [("a", (⟨57, some noMove⟩ : BookMove)), ("b", ⟨43, some noMove⟩)]
      = [("a", ⟨5699, some noMove⟩), ("b", ⟨4300, some noMove⟩)]
    ∧ pyRescale 57 100 = 5699
    ∧ (57 : Nat) * MAX_BOOK_WEIGHT / 100 = 5700 := by
  decide

/-- C3 (corrected): `Crazy_Horde.build_book_file` skips a game whose
`Variant` header is neither "Crazyhouse" nor "Horde" before touching the
book (so nothing of it is ingested) and the fold continues with the
remaining games; `create_polyglot.build_book_file`, by contrast, never
consults the declared variant: its per-game processing is invariant under
changing the `Variant` header, ingesting every game. -/
theorem C3_variant_skip {Board : Type} (R : ExternalOps Board) (book : Book)
    (g : PGame Board) (gs : List (PGame Board)) (v : String)
    (h1 : g.variant ≠ "Crazyhouse") (h2 : g.variant ≠ "Horde") :
    CH.processGame R book g = book
    ∧ List.foldl (CH.processGame R) book (g :: gs) = List.foldl (CH.processGame R) book gs
    ∧ CP.processGame R book g = CP.processGame R book { g with variant := v } := by
  have hskip : CH.processGame R book g = book := by
    unfold CH.processGame
    rw [if_neg (by rintro (h | h); exacts [h1 h, h2 h])]
  refine ⟨hskip, ?_, rfl⟩
  rw [List.foldl_cons, hskip]

/-- C3 witness: a "Atomic"-variant game is skipped whole by the
Crazy_Horde pipeline. -/
theorem C3_variant_skip_witness :
    CH.processGame natOps Book.empty ⟨"Atomic", "*", 0, []⟩ = Book.empty :=
  (C3_variant_skip natOps Book.empty ⟨"Atomic", "*", 0, []⟩ [] "X"
    (by decide) (by decide)).1

/-- C3 counterexample: `create_polyglot.build_book_file` accumulates the
moves of a game declaring the unrecognized variant "Atomic" (here: one ply
of a White win, stored with weight 2), contradicting the claim that such
games are skipped entirely. -/
theorem C3_variant_cex :
    Book.weightOf (CP.build natOps [⟨"Atomic", "1-0", 0, [noMove]⟩]) 0 "uci"
      = some 2 := by
  decide

/-- C9 (confirmed): both build pipelines are pure functions of the parsed
corpus (given the deterministic external collaborators): equal inputs give
byte-identical output files and identical reported counts.  In the
embedding aggregation folds games and plies in input order, the maps are
insertion-ordered association lists, and the sorts are stable insertion
sorts, so no output depends on anything but the corpus. -/
theorem C9_deterministic {Board : Type} (R : ExternalOps Board)
    (games1 games2 : List (PGame Board)) (h : games1 = games2) :
    CH.build_book_file R games1 = CH.build_book_file R games2
    ∧ CP.build_book_file R games1 = CP.build_book_file R games2 := by
  subst h
  exact ⟨rfl, rfl⟩

/-- C9 witness. -/
theorem C9_deterministic_witness :
    CH.build_book_file natOps [⟨"Crazyhouse", "1-0", 0, [noMove]⟩]
        = CH.build_book_file natOps [⟨"Crazyhouse", "1-0", 0, [noMove]⟩]
    ∧ CP.build_book_file natOps [⟨"Crazyhouse", "1-0", 0, [noMove]⟩]
        = CP.build_book_file natOps [⟨"Crazyhouse", "1-0", 0, [noMove]⟩] :=
  C9_deterministic natOps _ _ rfl

/-- C5 (confirmed): one ingestion step of either pipeline adds exactly
`score` to the played move's weight when White is to move and `2 - score`
when Black is, where `score` is 2 for "1-0", 1 for "1/2-1/2" and 0
otherwise; in particular a draw contributes 1 to either side
(`2 - 1 = 1`). -/
theorem C5_scoring {Board : Type} (R : ExternalOps Board) (res : String)
    (board : Board) (book : Book) (mv : PMove) (ply curKey : Nat)
    (h : ply < MAX_BOOK_PLIES) :
    (LichessGame.score "1-0" = 2 ∧ LichessGame.score "1/2-1/2" = 1)
    ∧ (res ≠ "1-0" → res ≠ "1/2-1/2" → LichessGame.score res = 0)
    ∧ (2 - LichessGame.score "1/2-1/2" = 1)
    ∧ Book.weightOf (CP.ingestLoop R (LichessGame.score res) ply board book [mv])
        (R.zobrist board)
        (correct_castling_uci
          (R.pieceTypeAt board (parse_square ((R.uciOf mv).take 2))) (R.uciOf mv))
      = some ((book.weightOf (R.zobrist board)
          (correct_castling_uci
            (R.pieceTypeAt board (parse_square ((R.uciOf mv).take 2))) (R.uciOf mv))).getD 0
        + (if R.turnWhite board then LichessGame.score res else 2 - LichessGame.score res))
    ∧ Book.weightOf (CH.ingestLoop R res ply board curKey book [mv]) curKey
        (CH.castlingRewrite (R.pieceTypeAt board mv.from_square) (R.uciOf mv))
      = some ((book.weightOf curKey
          (CH.castlingRewrite (R.pieceTypeAt board mv.from_square) (R.uciOf mv))).getD 0
        + (if R.turnWhite board then LichessGame.score res else 2 - LichessGame.score res)) := by
  refine ⟨⟨rfl, rfl⟩, ?_, rfl, ?_, ?_⟩
  · intro h1 h2
    unfold LichessGame.score
    rw [if_neg h2, if_neg h1]
  · rw [show CP.ingestLoop R (LichessGame.score res) ply board book [mv]
        = Book.addMove book (R.zobrist board)
            (correct_castling_uci
              (R.pieceTypeAt board (parse_square ((R.uciOf mv).take 2))) (R.uciOf mv))
            (R.fromUci (correct_castling_uci
              (R.pieceTypeAt board (parse_square ((R.uciOf mv).take 2))) (R.uciOf mv)))
            (if R.turnWhite board then LichessGame.score res else 2 - LichessGame.score res)
      from by
        rw [CP.ingestLoop, if_neg (Nat.not_le.mpr h)]
        rfl]
    exact weightOf_addMove_self _ _ _ _ _
  · rw [show CH.ingestLoop R res ply board curKey book [mv]
        = (Book.addMove book curKey
            (CH.castlingRewrite (R.pieceTypeAt board mv.from_square) (R.uciOf mv)) mv
            (if R.turnWhite board then LichessGame.score res
              else 2 - LichessGame.score res)).enterPosition
          (R.zobrist (R.push board mv)) (R.fen (R.push board mv))
      from by
        rw [CH.ingestLoop, if_pos h]
        rfl]
    rw [weightOf_enterPosition]
    exact weightOf_addMove_self _ _ _ _ _

/-- C5 witness: a White win adds 2 to the first ply's move in both
pipelines. -/
theorem C5_scoring_witness :
    Book.weightOf (CP.ingestLoop natOps 2 0 0 Book.empty [noMove]) 0 "uci" = some 2
    ∧ Book.weightOf (CH.ingestLoop natOps "1-0" 0 0 7 Book.empty [noMove]) 7 "uci"
      = some 2 := by
  have h := C5_scoring natOps "1-0" 0 Book.empty noMove 0 7 (by decide)
  exact ⟨by simpa using h.2.2.2.1, by simpa using h.2.2.2.2⟩

/-- C7 (confirmed): in both sources the stored uci is rewritten to the
rook-destination form exactly when the moving piece is a king and the uci
is one of the four short castling strings; every other combination is
stored unchanged. -/
theorem C7_castling (p : Option Nat) (u : String) :
    (correct_castling_uci (some KING) "e1g1" = "e1h1"
      ∧ correct_castling_uci (some KING) "e1c1" = "e1a1"
      ∧ correct_castling_uci (some KING) "e8g8" = "e8h8"
      ∧ correct_castling_uci (some KING) "e8c8" = "e8a8"
      ∧ CH.castlingRewrite (some KING) "e1g1" = "e1h1"
      ∧ CH.castlingRewrite (some KING) "e1c1" = "e1a1"
      ∧ CH.castlingRewrite (some KING) "e8g8" = "e8h8"
      ∧ CH.castlingRewrite (some KING) "e8c8" = "e8a8")
    ∧ (p ≠ some KING → correct_castling_uci p u = u ∧ CH.castlingRewrite p u = u)
    ∧ (u ≠ "e1g1" → u ≠ "e1c1" → u ≠ "e8g8" → u ≠ "e8c8" →
        correct_castling_uci p u = u ∧ CH.castlingRewrite p u = u) := by
  refine ⟨⟨rfl, rfl, rfl, rfl, rfl, rfl, rfl, rfl⟩, ?_, ?_⟩
  · intro h
    constructor
    · unfold correct_castling_uci
      rw [if_neg h]
    · unfold CH.castlingRewrite
      cases p with
      | none => rfl
      | some pt =>
        have hne : ¬ pt = KING := fun he => h (by rw [he])
        simp [hne]
  · intro h1 h2 h3 h4
    constructor
    · unfold correct_castling_uci
      by_cases hk : p = some KING
      · rw [if_pos hk, if_neg h1, if_neg h2, if_neg h3, if_neg h4]
      · rw [if_neg hk]
    · unfold CH.castlingRewrite
      cases p with
      | none => rfl
      | some pt =>
        by_cases hk : pt = KING
        · simp [hk, h1, h2, h3, h4]
        · simp [hk]

/-- C7 witness: a non-king piece on the castling pattern and a king on a
non-castling uci are both left unchanged. -/
theorem C7_castling_witness :
    (correct_castling_uci (some 5) "e1g1" = "e1g1"
      ∧ CH.castlingRewrite (some 5) "e1g1" = "e1g1")
    ∧ (correct_castling_uci (some KING) "d2d4" = "d2d4"
      ∧ CH.castlingRewrite (some KING) "d2d4" = "d2d4") :=
  ⟨(C7_castling (some 5) "e1g1").2.1 (by decide),
   (C7_castling (some KING) "d2d4").2.2 (by decide) (by decide) (by decide) (by decide)⟩

/-- C8 (confirmed): accumulation is additive — accumulating `s1` then `s2`
for the same (key, uci, move) equals accumulating `s1 + s2` once — and
merging two book files that both hold the same (key, move) with weights
100 and 50 leaves an in-memory weight of exactly 150. -/
theorem C8_additive (b : Book) (key : Nat) (uci : String) (m : PMove)
    (s1 s2 k0 : Nat) (m0 : PMove) (uciOf : PMove → String) :
    (b.addMove key uci m s1).addMove key uci m s2 = b.addMove key uci m (s1 + s2)
    ∧ Book.weightOf
        ((Book.empty.merge_file uciOf [(k0, m0, 100)]).merge_file uciOf [(k0, m0, 50)])
        k0 (uciOf m0) = some 150 := by
  constructor
  · unfold Book.addMove
    exact congrArg Book.mk (updPositions_twice _ _ _ _ _ _)
  · unfold Book.merge_file
    simp only [List.foldl_cons, List.foldl_nil]
    rw [weightOf_addMove_self, weightOf_addMove_self]
    have hempty : Book.weightOf Book.empty k0 (uciOf m0) = none := rfl
    rw [hempty]
    rfl

theorem record_slices (k m w z : List Nat) (hk : k.length = 8) (hm : m.length = 2)
    (hw : w.length = 2) :
    (k ++ m ++ w ++ z).take 8 = k
    ∧ ((k ++ m ++ w ++ z).drop 8).take 2 = m
    ∧ ((k ++ m ++ w ++ z).drop 10).take 2 = w
    ∧ (k ++ m ++ w ++ z).drop 12 = z := by
  have e1 : k ++ m ++ w ++ z = k ++ (m ++ (w ++ z)) := by simp [List.append_assoc]
  have e2 : k ++ m ++ w ++ z = (k ++ m) ++ (w ++ z) := by simp [List.append_assoc]
  have e3 : k ++ m ++ w ++ z = ((k ++ m) ++ w) ++ z := by simp [List.append_assoc]
  refine ⟨?_, ?_, ?_, ?_⟩
  · rw [e1]
    exact List.take_left' hk
  · rw [e1, List.drop_left' hk]
    exact List.take_left' hm
  · rw [e2, List.drop_left' (by simp [hk, hm])]
    exact List.take_left' hw
  · rw [e3, List.drop_left' (by simp [hk, hm, hw])]

/-- C4 (confirmed): every record written is exactly 16 bytes — 8-byte
big-endian key, 2-byte big-endian move field, 2-byte big-endian weight
field, 4 zero bytes — with the move field `to_square + (from_square << 6)`
plus `(promotion - 1) << 12` for a promotion, or `(drop - 1) << 12` instead
for a drop (the promotion branch takes precedence, the two being mutually
exclusive in real moves).  `create_polyglot`'s encoder, which lacks the
drop branch, agrees on every drop-free move. -/
theorem C4_record_layout (key : Nat) (m : PMove) (w : Nat)
    (hf : m.from_square < 64) (ht : m.to_square < 64)
    (hp : ∀ p ∈ m.promotion, 1 ≤ p ∧ p ≤ 5)
    (hd : ∀ d ∈ m.drop, 1 ≤ d ∧ d ≤ 5)
    (hw : w < 65536) :
    (CH.entryBytes key ⟨w, some m⟩).length = 16
    ∧ (CH.entryBytes key ⟨w, some m⟩).take 8 = toBytesBE 8 key
    ∧ ((CH.entryBytes key ⟨w, some m⟩).drop 8).take 2 = toBytesBE 2 (CH.moveInt m)
    ∧ CH.moveInt m < 65536
    ∧ (∀ p, m.promotion = some p →
        CH.moveInt m = m.to_square + m.from_square * 64 + (p - 1) * 4096)
    ∧ (∀ d, m.promotion = none → m.drop = some d →
        CH.moveInt m = m.to_square + m.from_square * 64 + (d - 1) * 4096)
    ∧ (m.promotion = none → m.drop = none →
        CH.moveInt m = m.to_square + m.from_square * 64)
    ∧ ((CH.entryBytes key ⟨w, some m⟩).drop 10).take 2 = toBytesBE 2 w
    ∧ fromBytesBE (((CH.entryBytes key ⟨w, some m⟩).drop 10).take 2) = w
    ∧ (CH.entryBytes key ⟨w, some m⟩).drop 12 = [0, 0, 0, 0]
    ∧ (m.drop = none → CP.entryBytes key ⟨w, some m⟩ = CH.entryBytes key ⟨w, some m⟩) := by
  have hs := record_slices (toBytesBE 8 key) (toBytesBE 2 (CH.moveInt m))
    (toBytesBE 2 w) (toBytesBE 4 0) (toBytesBE_length 8 key)
    (toBytesBE_length 2 (CH.moveInt m)) (toBytesBE_length 2 w)
  have hmi : CH.moveInt m < 65536 := by
    unfold CH.moveInt
    cases hop : m.promotion with
    | some p =>
      have h5 := hp p hop
      show m.to_square + m.from_square * 64 + (p - 1) * 4096 < 65536
      omega
    | none =>
      cases hod : m.drop with
      | some d =>
        have h5 := hd d hod
        show m.to_square + m.from_square * 64 + (d - 1) * 4096 < 65536
        omega
      | none =>
        show m.to_square + m.from_square * 64 < 65536
        omega
  refine ⟨?_, hs.1, hs.2.1, hmi, ?_, ?_, ?_, hs.2.2.1, ?_, hs.2.2.2, ?_⟩
  · show (toBytesBE 8 key ++ toBytesBE 2 (CH.moveInt m)
        ++ toBytesBE 2 w ++ toBytesBE 4 0).length = 16
    simp [toBytesBE_length]
  · intro p hpp
    unfold CH.moveInt
    rw [hpp]
  · intro d hpn hdd
    unfold CH.moveInt
    rw [hpn, hdd]
  · intro hpn hdn
    unfold CH.moveInt
    rw [hpn, hdn]
  · show fromBytesBE ((toBytesBE 8 key ++ toBytesBE 2 (CH.moveInt m)
        ++ toBytesBE 2 w ++ toBytesBE 4 0).drop 10 |>.take 2) = w
    rw [hs.2.2.1, fromBytesBE_toBytesBE]
    exact Nat.mod_eq_of_lt hw
  · intro hdn
    have hmi2 : CP.moveInt m = CH.moveInt m := by
      unfold CP.moveInt CH.moveInt
      cases hop : m.promotion with
      | some p => rfl
      | none => rw [hdn]
    show toBytesBE 8 key ++ toBytesBE 2 (CP.moveInt m) ++ toBytesBE 2 w ++ toBytesBE 4 0
        = toBytesBE 8 key ++ toBytesBE 2 (CH.moveInt m) ++ toBytesBE 2 w ++ toBytesBE 4 0
    rw [hmi2]

/-- C4 witness: a concrete Crazyhouse knight drop. -/
theorem C4_record_layout_witness :
    (CH.entryBytes 9 ⟨10000, some ⟨28, 28, none, some 2⟩⟩).length = 16
    ∧ CH.moveInt ⟨28, 28, none, some 2⟩ = 28 + 28 * 64 + (2 - 1) * 4096
    ∧ (CH.entryBytes 9 ⟨10000, some ⟨28, 28, none, some 2⟩⟩).drop 12 = [0, 0, 0, 0] := by
  have h := C4_record_layout 9 ⟨28, 28, none, some 2⟩ 10000 (by decide) (by decide)
    (by intro p hp; cases hp) (by intro d hd; cases hd; omega) (by decide)
  exact ⟨h.1, h.2.2.2.2.2.1 2 rfl rfl, h.2.2.2.2.2.2.2.2.2.1⟩

/-- C6 (confirmed): after normalization every move weight of a position
with positive total is between 0 and `MAX_BOOK_WEIGHT = 10000`, hence fits
the unsigned 16-bit weight field: the program's binary64 rescale is
bounded by the half-ulp property of round-to-nearest (the quotient of
w <= t rounds to at most 1.0, its product with 10000 rounds to at most
10000.0, truncation cannot increase), and Crazy_Horde's untouched
positions satisfy weight <= max_weight <= 10000 directly; a position
whose total weight is zero has all weights zero, so the `weight > 0`
write filter drops all of its moves and it contributes no records in
either writer. -/
theorem C6_normalization_bound (l : List (String × BookMove)) (key : Nat)
    (a : CH.SaveAcc) (bp : BookPosition) :
    (0 < totalWeight l → ∀ q ∈ CP.normalizeMoves l,
        q.2.weight ≤ MAX_BOOK_WEIGHT ∧ q.2.weight < 65536)
    ∧ (0 < totalWeight l → ∀ q ∈ CH.normalizeMoves l,
        q.2.weight ≤ MAX_BOOK_WEIGHT ∧ q.2.weight < 65536)
    ∧ (totalWeight l = 0 → l.filter wpos = [])
    ∧ (totalWeight bp.moves = 0 →
        (CH.savePosition a (key, bp)).entries = a.entries
          ∧ CP.posEntries key bp = []) := by
  have hM : MAX_BOOK_WEIGHT = 10000 := rfl
  have hfilter : ∀ l2 : List (String × BookMove), totalWeight l2 = 0 →
      l2.filter wpos = [] := by
    intro l2 h0
    refine List.filter_eq_nil_iff.mpr ?_
    intro q hq
    have := totalWeight_zero_all_zero l2 h0 q hq
    simp [wpos, this]
  refine ⟨?_, ?_, hfilter l, ?_⟩
  · intro ht q hq
    unfold CP.normalizeMoves at hq
    rw [if_pos ht] at hq
    rcases List.mem_map.mp hq with ⟨r, hr, rfl⟩
    dsimp only
    have hle : r.2.weight ≤ totalWeight l := weight_le_totalWeight l r hr
    have hb := pyRescale_le r.2.weight (totalWeight l) hle ht
    exact ⟨hb, by omega⟩
  · intro ht q hq
    unfold CH.normalizeMoves at hq
    by_cases hmax : MAX_BOOK_WEIGHT < maxWeight l
    · rw [if_pos hmax] at hq
      rcases List.mem_map.mp hq with ⟨r, hr, rfl⟩
      dsimp only
      have hle : r.2.weight ≤ totalWeight l := weight_le_totalWeight l r hr
      have hb := pyRescale_le r.2.weight (totalWeight l) hle ht
      exact ⟨hb, by omega⟩
    · rw [if_neg hmax] at hq
      have h1 : q.2.weight ≤ maxWeight l := weight_le_maxFold 0 l q hq
      have h2 : maxWeight l ≤ MAX_BOOK_WEIGHT := Nat.not_lt.mp hmax
      exact ⟨Nat.le_trans h1 h2, by omega⟩
  · intro h0
    constructor
    · rw [savePosition_spec]
      simp [hfilter bp.moves h0]
    · unfold CP.posEntries
      rw [hfilter bp.moves h0]
      rfl

/-- C6 witness: a position totalling 3 normalizes within the 10000 bound,
and a zero-total position contributes no records. -/
theorem C6_normalization_bound_witness :
    (∀ q ∈ CP.normalizeMoves [("a", (⟨3, some noMove⟩ : BookMove))],
        q.2.weight ≤ MAX_BOOK_WEIGHT ∧ q.2.weight < 65536)
    ∧ (CH.savePosition ⟨[], 0, 0⟩ (7, ⟨[("z", ⟨0, none⟩)], "x"⟩)).entries = []
    ∧ CP.posEntries 7 ⟨[("z", ⟨0, none⟩)], "x"⟩ = [] := by
  have h := C6_normalization_bound [("a", ⟨3, some noMove⟩)] 7 ⟨[], 0, 0⟩
    ⟨[("z", ⟨0, none⟩)], "x"⟩
  have h4 := h.2.2.2 (by decide)
  exact ⟨h.1 (by decide), by simpa using h4.1, h4.2⟩

/-- C10 (confirmed): the Crazyhouse/Horde ingestion creates a book entry
(with fen, but no move) for the position reached after every applied move —
after a one-ply game the final position's entry has an empty move table —
and the writer's reported position count counts exactly the positions
owning at least one positive-weight move, so empty positions yield no
records and are not counted: the one-ply White-win game below produces a
two-position book whose output is the single record of the first position. -/
theorem C10_empty_positions {Board : Type} (R : ExternalOps Board) (b0 : Board)
    (mv : PMove)
    (hne : R.zobrist (R.push b0 mv) ≠ R.zobrist b0)
    (hwhite : R.turnWhite b0 = true) :
    (∀ bk : Book, (CH.saveRaw bk).numpositions
        = (bk.positions.filter (fun p => p.2.moves.any wpos)).length)
    ∧ Book.findPos (CH.build R [⟨"Crazyhouse", "1-0", b0, [mv]⟩])
        (R.zobrist (R.push b0 mv)) = some ⟨[], R.fen (R.push b0 mv)⟩
    ∧ (CH.build R [⟨"Crazyhouse", "1-0", b0, [mv]⟩]).positions.length = 2
    ∧ (CH.save_as_polyglot (CH.normalize_weights
        (CH.build R [⟨"Crazyhouse", "1-0", b0, [mv]⟩]))).2.1 = 1
    ∧ (CH.save_as_polyglot (CH.normalize_weights
        (CH.build R [⟨"Crazyhouse", "1-0", b0, [mv]⟩]))).1
      = [CH.entryBytes (R.zobrist b0) ⟨2, some mv⟩] := by
  have hne' : ¬ (R.zobrist b0 = R.zobrist (R.push b0 mv)) := fun h => hne h.symm
  have hbuild : CH.build R [⟨"Crazyhouse", "1-0", b0, [mv]⟩]
      = ⟨[(R.zobrist b0,
            ⟨[(CH.castlingRewrite (R.pieceTypeAt b0 mv.from_square) (R.uciOf mv),
               ⟨2, some mv⟩)], R.fen b0⟩),
          (R.zobrist (R.push b0 mv), ⟨[], R.fen (R.push b0 mv)⟩)]⟩ := by
    unfold CH.build
    rw [List.foldl_cons, List.foldl_nil]
    unfold CH.processGame
    rw [if_pos (Or.inl rfl)]
    unfold CH.ingestLoop
    rw [if_pos (show (0:Nat) < MAX_BOOK_PLIES by decide)]
    rw [hwhite]
    unfold Book.enterPosition Book.addMove
    simp only [updFen, updPositions, if_true]
    rw [if_neg hne']
    rfl
  refine ⟨?_, ?_, ?_, ?_, ?_⟩
  · intro bk
    rw [saveRaw_spec]
  · rw [hbuild]
    simp [Book.findPos, List.lookup, beq_eq_false_iff_ne.mpr hne]
  · rw [hbuild]
    rfl
  · rw [hbuild]
    rfl
  · rw [hbuild]
    rfl


/-- C10 witness: with `Nat` boards (key = board, push = +1) the one-ply
game leaves position 1 with an empty move table, counts one position and
writes one record. -/
theorem C10_empty_positions_witness :
    Book.findPos (CH.build natOps [⟨"Crazyhouse", "1-0", 0, [noMove]⟩]) 1
      = some ⟨[], ""⟩
    ∧ (CH.save_as_polyglot (CH.normalize_weights
        (CH.build natOps [⟨"Crazyhouse", "1-0", 0, [noMove]⟩]))).2.1 = 1 := by
  have h := C10_empty_positions natOps 0 noMove (by decide) rfl
  exact ⟨h.2.1, h.2.2.2.1⟩
